import Mathlib

/-!
Shallow embedding of `src/modes/Lynx_receiver.py`: the CSV-style line
decoder `parse_csv_line`, the display state `State`, the message reducer
`apply_message`, the render scheduler's rotation tick, and the renderer's
result-index computation.  Machine strings are `String` (lists of `Char`),
Python list slices become `List.drop`, and the mutable `State` object is
threaded explicitly.
-/

namespace LynxReceiver

/-- Python `str.strip()` modelled on the character list of a string:
drop leading whitespace, then drop trailing whitespace. -/
def stripChars (cs : List Char) : List Char :=
  ((cs.dropWhile Char.isWhitespace).reverse.dropWhile Char.isWhitespace).reverse

/-- Python `''.join(field).strip()` for an accumulated field. -/
def strip (cs : List Char) : String := ⟨stripChars cs⟩

/-- The character loop of `parse_csv_line` (Lynx_receiver.py lines 73-89):
the `out` / `field` / `in_quotes` state machine over the line's characters.
A double quote toggles `in_quotes`, except that inside quotes a doubled
quote emits one literal quote; a comma outside quotes ends the field. -/
def parseAux : List Char → Bool → List Char → List String
  | [], _, field => [strip field]
  | '"' :: '"' :: rest, true, field => parseAux rest true (field ++ ['"'])
  | '"' :: rest, inq, field =>
      if inq then parseAux rest false field else parseAux rest true field
  | ',' :: rest, false, field => strip field :: parseAux rest false []
  | c :: rest, inq, field => parseAux rest inq (field ++ [c])

/-- Function `parse_csv_line` (Lynx_receiver.py lines 73-89). -/
def parse_csv_line (line : String) : List String := parseAux line.data false []

/-- Python `str.upper()` on the strings appearing in the protocol. -/
def upperStr (s : String) : String := ⟨s.data.map Char.toUpper⟩

/-- Class `State` (Lynx_receiver.py lines 93-101).  `mode` is the Python string
`"HEADER"` or `"RESULTS"`; `results` holds `(place, mark)` pairs and
`results_names` the parallel list of last names. -/
structure State where
  event : String
  heat : String
  clock : String
  mode : String
  results : List (String × String)
  results_names : List String
  result_index : Nat
deriving DecidableEq, Repr

/-- Constructor `State.__init__` (lines 94-101); `State.clear` (lines 103-104) re-runs it. -/
def State.initial : State :=
  { event := "", heat := "", clock := "0:00", mode := "HEADER",
    results := [], results_names := [], result_index := 0 }

/-- Python slice `xs[-n:]`: the last `n` elements of a list. -/
def lastN (n : Nat) (xs : List α) : List α := xs.drop (xs.length - n)

/-- The `SR` branch of `apply_message` (lines 273-284) with the three
positional fields `(place, last, mark)` already extracted from the line:
append `(place, mark)` to `results` and `last` to `results_names`, cap
both to the last 16 entries, and force RESULTS mode. -/
def applySR (st : State) (r : String × String × String) : State :=
  { st with results := lastN 16 (st.results ++ [(r.1, r.2.2)]),
            results_names := lastN 16 (st.results_names ++ [r.2.1]),
            mode := "RESULTS" }

/-- Function `apply_message` (Lynx_receiver.py lines 241-293), the state reducer,
as a pure function from the old state and the raw line to the new state. -/
def apply_message (st : State) (line : String) : State :=
  if line = "" then st else
  let parts := parse_csv_line line
  if parts = [] then st else
  let tag := upperStr (parts.headD "")
  if tag = "CL" then State.initial
  else if tag = "RH" then
    let heat := parts.getD 4 ""
    { st with event := parts.getD 1 "",
              heat := if heat = "" then "" else heat,
              clock := "0:00", mode := "HEADER" }
  else if tag = "TM" then
    { st with clock := parts.getD 1 st.clock, mode := "HEADER" }
  else if tag = "SRMODE" then
    if 1 < parts.length ∧ upperStr (parts.getD 1 "") = "BEGIN" then
      { st with mode := "RESULTS", result_index := 0 }
    else if 1 < parts.length ∧ upperStr (parts.getD 1 "") = "END" then
      { st with mode := "HEADER" }
    else st
  else if tag = "SR" then
    let place := parts.getD 1 ""
    let last := parts.getD 2 ""
    let mark := parts.getD 3 ""
    applySR st (place, last, mark)
  else if tag = "TX" then
    { st with event := parts.getD 1 st.event, heat := "", mode := "HEADER" }
  else st

/-- One rotation tick of the render scheduler (`main`, lines 334-337),
taken at an instant where the rotation interval has elapsed:
`st.result_index += 1` when in RESULTS mode with a non-empty results list,
otherwise nothing happens to the state. -/
def tickRotate (st : State) : State :=
  if st.mode = "RESULTS" ∧ st.results ≠ [] then
    { st with result_index := st.result_index + 1 }
  else st

/-- The index the renderer actually reads (`render_results`, line 168):
`i = st.result_index % len(st.results)`. -/
def renderIndex (st : State) : Nat := st.result_index % st.results.length

/-- Applying a whole sequence of received lines in order, starting from
the freshly constructed state (`main`, lines 310 and 327-329). -/
def applyAll (lines : List String) : State :=
  lines.foldl apply_message State.initial

/-- Ghost reducer for the combined result entries: the single list of
`(place, name, mark)` entries that `apply_message` conceptually maintains
through its two parallel lists.  It is built from the same line by the
same branches: `CL` clears it (lines 247-248), `SR` appends the three
positional fields of that one line and caps it to the last 16
(lines 273-284), and every other line leaves it untouched. -/
def applyEntries (es : List (String × String × String)) (line : String) :
    List (String × String × String) :=
  if line = "" then es else
  let parts := parse_csv_line line
  if parts = [] then es else
  let tag := upperStr (parts.headD "")
  if tag = "CL" then []
  else if tag = "SR" then
    lastN 16 (es ++ [(parts.getD 1 "", parts.getD 2 "", parts.getD 3 "")])
  else es

/-! Spec-side definitions, following the spec's words about the decoder
(section 4.2), used to compare `parse_csv_line` against its specification:
a field may be wrapped in double quotes to contain literal commas, and a
doubled double-quote inside a quoted field represents one literal quote. -/

/-- Spec-side quote escaping: each literal quote of a field body is
written as a doubled double-quote. -/
def escapeQuotes : List Char → List Char
  | [] => []
  | '"' :: rest => '"' :: '"' :: escapeQuotes rest
  | c :: rest => c :: escapeQuotes rest

/-- Spec-side field encoding: the field body, quotes doubled, wrapped in
double quotes. -/
def encodeField (f : List Char) : List Char := '"' :: (escapeQuotes f ++ ['"'])

/-- Spec-side joining of encoded fields with comma separators. -/
def joinFields : List (List Char) → List Char
  | [] => []
  | [f] => f
  | f :: rest => f ++ ',' :: joinFields rest

/-- Spec-side splitting on every comma (for quote-free lines, where every
comma is a top-level comma): the characters before the first comma. -/
def firstGroup : List Char → List Char
  | [] => []
  | ',' :: _ => []
  | c :: rest => c :: firstGroup rest

/-- Spec-side splitting on every comma: the groups after each comma. -/
def restGroups : List Char → List (List Char)
  | [] => []
  | ',' :: rest => firstGroup rest :: restGroups rest
  | _ :: rest => restGroups rest

/-- Spec-side splitting of a line on every comma. -/
def splitCommas (s : List Char) : List (List Char) := firstGroup s :: restGroups s

/-! Helper lemmas about `lastN` (the Python slice `xs[-n:]`). -/

theorem length_lastN_le (n : Nat) (xs : List α) : (lastN n xs).length ≤ n := by
  simp only [lastN, List.length_drop]
  omega

theorem lastN_lastN_append (n : Nat) (xs ys : List α) :
    lastN n (lastN n xs ++ ys) = lastN n (xs ++ ys) := by
  by_cases h : xs.length ≤ n
  · have h0 : xs.length - n = 0 := Nat.sub_eq_zero_of_le h
    simp [lastN, h0]
  · push_neg at h
    have hlen : (xs.drop (xs.length - n)).length = n := by
      rw [List.length_drop]; omega
    unfold lastN
    rw [List.length_append, hlen, List.length_append, Nat.add_sub_cancel_left]
    by_cases hk : ys.length ≤ n
    · have h1 : ys.length ≤ (xs.drop (xs.length - n)).length := by rw [hlen]; exact hk
      rw [List.drop_append_of_le_length h1, List.drop_drop,
        List.drop_append_of_le_length (show xs.length + ys.length - n ≤ xs.length by omega),
        show xs.length - n + ys.length = xs.length + ys.length - n by omega]
    · push_neg at hk
      calc (xs.drop (xs.length - n) ++ ys).drop ys.length
          = (xs.drop (xs.length - n) ++ ys).drop
              ((xs.drop (xs.length - n)).length + (ys.length - n)) := by
            rw [hlen]; congr 1; omega
        _ = ys.drop (ys.length - n) := List.drop_append _
        _ = (xs ++ ys).drop (xs.length + (ys.length - n)) := (List.drop_append _).symm
        _ = (xs ++ ys).drop (xs.length + ys.length - n) := by congr 1; omega

theorem lastN_append_right (n : Nat) (xs ys : List α) (h : n ≤ ys.length) :
    lastN n (xs ++ ys) = lastN n ys := by
  unfold lastN
  rw [List.length_append]
  calc (xs ++ ys).drop (xs.length + ys.length - n)
      = (xs ++ ys).drop (xs.length + (ys.length - n)) := by congr 1; omega
    _ = ys.drop (ys.length - n) := List.drop_append _

theorem lastN_map (f : α → β) (n : Nat) (xs : List α) :
    lastN n (xs.map f) = (lastN n xs).map f := by
  simp [lastN, List.length_map, List.map_drop]

/-! Derived step equations for `parseAux`, one per situation of the
character loop. -/

theorem parseAux_nil (inq : Bool) (acc : List Char) :
    parseAux [] inq acc = [strip acc] := rfl

theorem parseAux_dquote (t acc : List Char) :
    parseAux ('"' :: '"' :: t) true acc = parseAux t true (acc ++ ['"']) := rfl

theorem parseAux_quote_close (t acc : List Char) (h : ∀ t2, t ≠ '"' :: t2) :
    parseAux ('"' :: t) true acc = parseAux t false acc := by
  cases t with
  | nil => rfl
  | cons c t2 =>
    have hc : c ≠ '"' := fun hc => h t2 (by rw [hc])
    rw [parseAux.eq_def]
    simp [hc]

theorem parseAux_quote_open (t acc : List Char) :
    parseAux ('"' :: t) false acc = parseAux t true acc := by
  cases t with
  | nil => rfl
  | cons c t2 =>
    by_cases hc : c = '"'
    · subst hc; rfl
    · rw [parseAux.eq_def]
      simp [hc]

theorem parseAux_comma (t acc : List Char) :
    parseAux (',' :: t) false acc = strip acc :: parseAux t false [] := rfl

theorem parseAux_other (c : Char) (t : List Char) (inq : Bool) (acc : List Char)
    (h1 : c ≠ '"') (h2 : c ≠ ',') :
    parseAux (c :: t) inq acc = parseAux t inq (acc ++ [c]) := by
  rw [parseAux.eq_def]
  simp [h1, h2]

theorem parseAux_comma_inq (t acc : List Char) :
    parseAux (',' :: t) true acc = parseAux t true (acc ++ [',']) := by
  rw [parseAux.eq_def]
  simp

/-! Whitespace stripping: `strip` is idempotent, so every emitted field is
its own stripped form. -/

theorem dropWhile_idem (p : α → Bool) (xs : List α) :
    (xs.dropWhile p).dropWhile p = xs.dropWhile p := by
  induction xs with
  | nil => rfl
  | cons c r ih =>
    by_cases h : p c
    · simp [List.dropWhile_cons, h, ih]
    · simp [List.dropWhile_cons, h]

theorem dropWhile_prefix_decomp (p : α → Bool) (xs : List α) :
    ∃ t, xs = t ++ xs.dropWhile p := by
  induction xs with
  | nil => exact ⟨[], rfl⟩
  | cons c r ih =>
    by_cases h : p c
    · obtain ⟨t, ht⟩ := ih
      exact ⟨c :: t, by simp [List.dropWhile_cons, h, ← ht]⟩
    · exact ⟨[], by simp [List.dropWhile_cons, h]⟩

theorem dropWhile_head_false (p : α → Bool) (c : α) (r : List α)
    (h : (c :: r).dropWhile p = c :: r) : p c = false := by
  cases hc : p c
  · rfl
  · exfalso
    rw [List.dropWhile_cons_of_pos hc] at h
    have hle : (r.dropWhile p).length ≤ r.length :=
      List.Sublist.length_le (List.dropWhile_sublist _)
    rw [h] at hle
    simp at hle

theorem stripChars_idem (cs : List Char) : stripChars (stripChars cs) = stripChars cs := by
  unfold stripChars
  set ws := Char.isWhitespace
  set a := cs.dropWhile ws with ha
  have haa : a.dropWhile ws = a := by rw [ha]; exact dropWhile_idem ws cs
  set b := (a.reverse.dropWhile ws).reverse with hb
  have hrev : b.reverse = a.reverse.dropWhile ws := by rw [hb, List.reverse_reverse]
  have hb_drop : b.dropWhile ws = b := by
    obtain ⟨t, ht⟩ := dropWhile_prefix_decomp ws a.reverse
    have hab : a = b ++ t.reverse := by
      have h2 := congrArg List.reverse ht
      rw [List.reverse_reverse, List.reverse_append] at h2
      rw [hb]
      exact h2
    cases hbv : b with
    | nil => rfl
    | cons c b2 =>
      have hhead : ws c = false := by
        have : a = c :: (b2 ++ t.reverse) := by rw [hab, hbv]; simp
        apply dropWhile_head_false ws c (b2 ++ t.reverse)
        rw [← this]
        exact haa
      rw [List.dropWhile_cons_of_neg (by rw [hhead]; simp)]
  rw [hb_drop, hrev, dropWhile_idem, ← hrev, List.reverse_reverse]

theorem strip_idem (cs : List Char) : strip (strip cs).data = strip cs := by
  simp [strip, stripChars_idem]

/-- Every field emitted by the parser loop is already stripped. -/
theorem parseAux_fields_stripped :
    ∀ (s : List Char) (inq : Bool) (acc : List Char),
      ∀ f ∈ parseAux s inq acc, strip f.data = f := by
  intro s inq acc
  induction s, inq, acc using parseAux.induct with
  | case1 inq acc =>
    intro f hf
    rw [parseAux_nil] at hf
    simp at hf
    rw [hf]
    exact strip_idem _
  | case2 t acc ih =>
    intro f hf
    rw [parseAux_dquote] at hf
    exact ih f hf
  | case3 t acc hne ih =>
    intro f hf
    rw [parseAux_quote_close t acc (fun t2 h2 => hne t2 h2 rfl)] at hf
    exact ih f hf
  | case4 t inq acc hne hinq ih =>
    intro f hf
    have hb : inq = false := by
      cases inq
      · rfl
      · exact absurd rfl hinq
    subst hb
    rw [parseAux_quote_open] at hf
    exact ih f hf
  | case5 t acc ih =>
    intro f hf
    rw [parseAux_comma] at hf
    rcases List.mem_cons.mp hf with hf | hf
    · rw [hf]; exact strip_idem _
    · exact ih f hf
  | case6 c t inq acc h1 h2 h3 ih =>
    intro f hf
    by_cases hc : c = '"'
    · exfalso; exact h2 hc
    · by_cases hcc : c = ','
      · have hinq : inq = true := by
          cases inq
          · exact absurd (h3 hcc rfl) not_false
          · rfl
        subst hinq hcc
        rw [parseAux_comma_inq] at hf
        exact ih f hf
      · rw [parseAux_other c t inq acc hc hcc] at hf
        exact ih f hf

/-! Behaviour of the parser loop on quoted fields, encoded lines,
quote-free lines, and unterminated quotes. -/

theorem parseAux_escaped (f : List Char) :
    ∀ (rest acc : List Char), (∀ t2, rest ≠ '"' :: t2) →
      parseAux (escapeQuotes f ++ '"' :: rest) true acc = parseAux rest false (acc ++ f) := by
  induction f with
  | nil =>
    intro rest acc h
    simp only [escapeQuotes, List.nil_append]
    rw [parseAux_quote_close rest acc h, List.append_nil]
  | cons c f2 ih =>
    intro rest acc h
    by_cases hc : c = '"'
    · subst hc
      show parseAux ('"' :: '"' :: (escapeQuotes f2 ++ '"' :: rest)) true acc = _
      rw [parseAux_dquote, ih rest (acc ++ ['"']) h]
      congr 1
      simp
    · have he : escapeQuotes (c :: f2) = c :: escapeQuotes f2 := by
        rw [escapeQuotes.eq_def]; simp [hc]
      rw [he, List.cons_append]
      by_cases hcc : c = ','
      · subst hcc
        rw [parseAux_comma_inq, ih rest (acc ++ [',']) h]
        congr 1
        simp
      · rw [parseAux_other c _ true acc hc hcc, ih rest (acc ++ [c]) h]
        congr 1
        simp

theorem parse_encoded :
    ∀ fs : List (List Char), fs ≠ [] →
      parseAux (joinFields (fs.map encodeField)) false [] = fs.map strip := by
  intro fs
  induction fs with
  | nil => intro h; contradiction
  | cons f rest ih =>
    intro _
    cases rest with
    | nil =>
      calc parseAux (joinFields ([f].map encodeField)) false []
          = parseAux (escapeQuotes f ++ '"' :: []) true [] := parseAux_quote_open _ _
        _ = parseAux [] false ([] ++ f) :=
            parseAux_escaped f [] [] (fun t2 h2 => by simp at h2)
        _ = [strip f] := by rw [parseAux_nil, List.nil_append]
    | cons f2 rest2 =>
      have hne : ∀ t2, (',' :: joinFields ((f2 :: rest2).map encodeField)) ≠ '"' :: t2 := by
        intro t2 h2
        simp at h2
      calc parseAux (joinFields ((f :: f2 :: rest2).map encodeField)) false []
          = parseAux ('"' :: (escapeQuotes f ++
              '"' :: (',' :: joinFields ((f2 :: rest2).map encodeField)))) false [] := by
            show parseAux (encodeField f ++
              ',' :: joinFields ((f2 :: rest2).map encodeField)) false [] = _
            simp [encodeField, List.append_assoc]
        _ = parseAux (escapeQuotes f ++
              '"' :: (',' :: joinFields ((f2 :: rest2).map encodeField))) true [] :=
            parseAux_quote_open _ _
        _ = parseAux (',' :: joinFields ((f2 :: rest2).map encodeField)) false ([] ++ f) :=
            parseAux_escaped f _ [] hne
        _ = strip f :: parseAux (joinFields ((f2 :: rest2).map encodeField)) false [] := by
            rw [List.nil_append, parseAux_comma]
        _ = (f :: f2 :: rest2).map strip := by
            rw [ih (by simp)]
            rfl

theorem parseAux_no_quotes :
    ∀ (s : List Char) (acc : List Char), '"' ∉ s →
      parseAux s false acc = strip (acc ++ firstGroup s) :: (restGroups s).map strip := by
  intro s
  induction s with
  | nil =>
    intro acc _
    simp [parseAux_nil, firstGroup, restGroups]
  | cons c r ih =>
    intro acc h
    have hr : '"' ∉ r := fun hx => h (List.mem_cons_of_mem _ hx)
    have hc : c ≠ '"' := by
      rintro rfl
      exact h (List.mem_cons_self _ _)
    by_cases hcc : c = ','
    · subst hcc
      rw [parseAux_comma, ih [] hr]
      simp [firstGroup, restGroups]
    · have hfg : firstGroup (c :: r) = c :: firstGroup r := by
        rw [firstGroup.eq_def]; simp [hcc]
      have hrg : restGroups (c :: r) = restGroups r := by
        rw [restGroups.eq_def]; simp [hcc]
      rw [parseAux_other c r false acc hc hcc, ih (acc ++ [c]) hr, hfg, hrg]
      congr 2
      simp

theorem parseAux_inq_eol :
    ∀ (a acc : List Char), '"' ∉ a → parseAux a true acc = [strip (acc ++ a)] := by
  intro a
  induction a with
  | nil =>
    intro acc _
    rw [parseAux_nil, List.append_nil]
  | cons c r ih =>
    intro acc h
    have hr : '"' ∉ r := fun hx => h (List.mem_cons_of_mem _ hx)
    have hc : c ≠ '"' := by
      rintro rfl
      exact h (List.mem_cons_self _ _)
    by_cases hcc : c = ','
    · subst hcc
      rw [parseAux_comma_inq, ih (acc ++ [',']) hr]
      congr 2
      simp
    · rw [parseAux_other c r true acc hc hcc, ih (acc ++ [c]) hr]
      congr 2
      simp

/-! State-level helper lemmas. -/

theorem foldl_applySR (msgs : List (String × String × String)) :
    ∀ st : State, msgs ≠ [] →
      (msgs.foldl applySR st).results =
          lastN 16 (st.results ++ msgs.map fun r => (r.1, r.2.2)) ∧
      (msgs.foldl applySR st).results_names =
          lastN 16 (st.results_names ++ msgs.map fun r => r.2.1) ∧
      (msgs.foldl applySR st).mode = "RESULTS" := by
  induction msgs with
  | nil => intro st h; contradiction
  | cons a rest ih =>
    intro st _
    cases hr : rest with
    | nil => exact ⟨rfl, rfl, rfl⟩
    | cons b rest2 =>
      rw [← hr]
      have hne : rest ≠ [] := by rw [hr]; simp
      obtain ⟨h1, h2, h3⟩ := ih (applySR st a) hne
      refine ⟨?_, ?_, h3⟩
      · rw [List.foldl_cons, h1]
        show lastN 16 (lastN 16 (st.results ++ [(a.1, a.2.2)]) ++
          rest.map fun r => (r.1, r.2.2)) = _
        rw [lastN_lastN_append, List.append_assoc]
        rfl
      · rw [List.foldl_cons, h2]
        show lastN 16 (lastN 16 (st.results_names ++ [a.2.1]) ++
          rest.map fun r => r.2.1) = _
        rw [lastN_lastN_append, List.append_assoc]
        rfl

theorem tickRotate_iterate (S : State) (hm : S.mode = "RESULTS") (hr : S.results ≠ []) :
    ∀ K : Nat, tickRotate^[K] S = { S with result_index := S.result_index + K } := by
  intro K
  induction K with
  | zero => rfl
  | succ k ih =>
    rw [Function.iterate_succ_apply', ih]
    unfold tickRotate
    rw [if_pos ⟨hm, hr⟩]
    rfl

theorem apply_message_result_index (S : State) (line : String) (h : S.result_index = 0) :
    (apply_message S line).result_index = 0 := by
  simp only [apply_message]
  split_ifs <;> first | exact h | rfl

theorem foldl_result_index :
    ∀ (lines : List String) (S : State), S.result_index = 0 →
      (lines.foldl apply_message S).result_index = 0 := by
  intro lines
  induction lines with
  | nil => intro S h; exact h
  | cons l rest ih =>
    intro S h
    exact ih _ (apply_message_result_index S l h)

theorem applySR_parallel (st : State) (r : String × String × String)
    (es : List (String × String × String))
    (hres : st.results = es.map fun e => (e.1, e.2.2))
    (hnames : st.results_names = es.map fun e => e.2.1) :
    (applySR st r).results = (lastN 16 (es ++ [r])).map (fun e => (e.1, e.2.2)) ∧
    (applySR st r).results_names = (lastN 16 (es ++ [r])).map fun e => e.2.1 := by
  constructor
  · show lastN 16 (st.results ++ [(r.1, r.2.2)]) = _
    rw [hres, ← lastN_map, List.map_append]
    rfl
  · show lastN 16 (st.results_names ++ [r.2.1]) = _
    rw [hnames, ← lastN_map, List.map_append]
    rfl

theorem apply_message_entries (S : State) (line : String)
    (es : List (String × String × String))
    (hres : S.results = es.map fun e => (e.1, e.2.2))
    (hnames : S.results_names = es.map fun e => e.2.1) :
    (apply_message S line).results = (applyEntries es line).map (fun e => (e.1, e.2.2)) ∧
    (apply_message S line).results_names = (applyEntries es line).map fun e => e.2.1 := by
  simp only [apply_message, applyEntries]
  split_ifs
  all_goals first
    | exact ⟨hres, hnames⟩
    | exact ⟨rfl, rfl⟩
    | exact ⟨(applySR_parallel S _ es hres hnames).1,
        (applySR_parallel S _ es hres hnames).2⟩
    | simp_all

theorem foldl_entries :
    ∀ (lines : List String) (S : State)
      (es : List (String × String × String)),
      S.results = es.map (fun e => (e.1, e.2.2)) →
      S.results_names = (es.map fun e => e.2.1) →
      (lines.foldl apply_message S).results =
        (lines.foldl applyEntries es).map (fun e => (e.1, e.2.2)) ∧
      (lines.foldl apply_message S).results_names =
        (lines.foldl applyEntries es).map fun e => e.2.1 := by
  intro lines
  induction lines with
  | nil => intro S es h1 h2; exact ⟨h1, h2⟩
  | cons l rest ih =>
    intro S es h1 h2
    obtain ⟨h3, h4⟩ := apply_message_entries S l es h1 h2
    exact ih (apply_message S l) (applyEntries es l) h3 h4

/-! The claims. -/

/-- Claim C1, counterexample to the claim as stated: with one result
(L = 1) and one elapsed rotation tick (K = 1), the stored `result_index`
is 1, not `1 % 1 = 0`: the scheduler increments without taking a modulus. -/
theorem rotation_index_no_mod_cex :
    (tickRotate (apply_message State.initial "SR,1,Riley,4:23.6")).result_index ≠ 1 % 1 := by
  decide

/-- Claim C1 (amended): each elapsed rotation tick advances the stored
`result_index` by one, without any modulus, so after K ticks in RESULTS
mode with non-empty results and starting index 0 the stored index is K;
the index the renderer derives from it is `K mod L`. -/
theorem rotation_ticks_advance (S : State) (K : Nat) (hm : S.mode = "RESULTS")
    (hr : S.results ≠ []) (h0 : S.result_index = 0) :
    (tickRotate^[K] S).result_index = K ∧
    renderIndex (tickRotate^[K] S) = K % S.results.length := by
  rw [tickRotate_iterate S hm hr K]
  constructor
  · show S.result_index + K = K
    rw [h0, Nat.zero_add]
  · show (S.result_index + K) % S.results.length = K % S.results.length
    rw [h0, Nat.zero_add]

/-- Claim C1 witness: three ticks on a one-entry results list leave
stored index 3 and renderer index 3 mod 1. -/
theorem rotation_ticks_advance_witness :
    (tickRotate^[3] (apply_message State.initial "SR,1,Riley,4:23.6")).result_index = 3 ∧
    renderIndex (tickRotate^[3] (apply_message State.initial "SR,1,Riley,4:23.6")) =
      3 % (apply_message State.initial "SR,1,Riley,4:23.6").results.length :=
  rotation_ticks_advance _ 3 (by decide) (by decide) (by decide)

/-- Claim C2, counterexample to the claim as stated: after one SR message
and one elapsed rotation tick the stored `result_index` is 1, which is not
smaller than `max(results.length, 1) = 1`. -/
theorem rotation_invariant_cex :
    ¬ ((tickRotate (apply_message State.initial "SR,1,Riley,4:23.6")).result_index <
      max (tickRotate (apply_message State.initial "SR,1,Riley,4:23.6")).results.length 1) := by
  decide

/-- Claim C2 (amended): after reducer applications alone from the initial
state the invariant holds because `result_index` stays 0; scheduler
rotation ticks break the stored-index bound, but the index the renderer
actually reads the list with, `result_index % results.length`, is always
below `results.length` whenever the results are non-empty. -/
theorem rotation_index_bound :
    (∀ lines : List String,
      (applyAll lines).result_index < max (applyAll lines).results.length 1) ∧
    (∀ S : State, S.results ≠ [] → renderIndex S < S.results.length) := by
  constructor
  · intro lines
    have h : (applyAll lines).result_index = 0 := foldl_result_index lines State.initial rfl
    rw [h]
    have := Nat.le_max_right (applyAll lines).results.length 1
    omega
  · intro S h
    exact Nat.mod_lt _ (List.length_pos.mpr h)

/-- Claim C2 witness: the bound after one applied SR line, and the
renderer bound on the resulting one-entry state. -/
theorem rotation_index_bound_witness :
    (applyAll ["SR,1,Riley,4:23.6"]).result_index <
      max (applyAll ["SR,1,Riley,4:23.6"]).results.length 1 ∧
    renderIndex (apply_message State.initial "SR,1,Riley,4:23.6") <
      (apply_message State.initial "SR,1,Riley,4:23.6").results.length :=
  ⟨rotation_index_bound.1 ["SR,1,Riley,4:23.6"],
   rotation_index_bound.2 _ (by decide)⟩

/-- Claim C3, counterexample to the claim as stated: a bare `TM` line does
not set the clock to the empty string — after `TM,2:03.7` followed by a
bare `TM`, the clock still reads `2:03.7` (the reducer keeps the previous
clock when the argument is missing). -/
theorem bare_tm_cex :
    (apply_message (apply_message State.initial "TM,2:03.7") "TM").clock ≠ "" := by
  decide

/-- Claim C3 (amended): no tag errors on missing positional arguments, but
the defaults differ: a bare `TM` keeps the previous clock (only forcing
HEADER mode), a bare `TX` keeps the previous event (clearing heat and
forcing HEADER), while bare `RH` and `SR` do default the missing fields to
the empty string. -/
theorem missing_args_defaults (S : State) :
    apply_message S "TM" = { S with mode := "HEADER" } ∧
    apply_message S "TX" = { S with heat := "", mode := "HEADER" } ∧
    apply_message S "RH" =
      { S with event := "", heat := "", clock := "0:00", mode := "HEADER" } ∧
    apply_message S "SR" =
      { S with results := lastN 16 (S.results ++ [("", "")]),
               results_names := lastN 16 (S.results_names ++ [""]),
               mode := "RESULTS" } :=
  ⟨rfl, rfl, rfl, rfl⟩

/-- Claim C4: any non-empty sequence of SR result messages leaves at most
16 entries and forces RESULTS mode; with more than 16 messages the
surviving entries (and names) are exactly the last 16 inserted, in
oldest-first order. -/
theorem sr_fifo_window (S : State) (msgs : List (String × String × String))
    (h : msgs ≠ []) :
    (msgs.foldl applySR S).results.length ≤ 16 ∧
    (msgs.foldl applySR S).mode = "RESULTS" ∧
    (16 < msgs.length →
      (msgs.foldl applySR S).results = lastN 16 (msgs.map fun r => (r.1, r.2.2)) ∧
      (msgs.foldl applySR S).results_names = lastN 16 (msgs.map fun r => r.2.1)) := by
  obtain ⟨h1, h2, h3⟩ := foldl_applySR msgs S h
  refine ⟨?_, h3, ?_⟩
  · rw [h1]; exact length_lastN_le _ _
  · intro hlen
    constructor
    · rw [h1, lastN_append_right]
      rw [List.length_map]; omega
    · rw [h2, lastN_append_right]
      rw [List.length_map]; omega

/-- Claim C4 witness: 17 identical SR messages from the initial state. -/
theorem sr_fifo_window_witness :
    ((List.replicate 17 (("1", "Riley", "4:23.6") : String × String × String)).foldl
        applySR State.initial).results.length ≤ 16 ∧
    ((List.replicate 17 (("1", "Riley", "4:23.6") : String × String × String)).foldl
        applySR State.initial).mode = "RESULTS" ∧
    (((List.replicate 17 (("1", "Riley", "4:23.6") : String × String × String)).foldl
        applySR State.initial).results =
      lastN 16 ((List.replicate 17 (("1", "Riley", "4:23.6") : String × String × String)).map
        fun r => (r.1, r.2.2)) ∧
     ((List.replicate 17 (("1", "Riley", "4:23.6") : String × String × String)).foldl
        applySR State.initial).results_names =
      lastN 16 ((List.replicate 17 (("1", "Riley", "4:23.6") : String × String × String)).map
        fun r => r.2.1)) := by
  have h := sr_fifo_window State.initial
    (List.replicate 17 ("1", "Riley", "4:23.6")) (by decide)
  exact ⟨h.1, h.2.1, h.2.2 (by decide)⟩

/-- Claim C5: applying a `CL` (Clear) message to any state yields exactly
the initial state. -/
theorem clear_resets_state (S : State) : apply_message S "CL" = State.initial := rfl

/-- Claim C6: a blank line, or a line whose uppercased first field is none
of the known tags CL, RH, TM, SRMODE, SR, TX, leaves the state unchanged. -/
theorem unknown_line_noop (S : State) (line : String)
    (h : line = "" ∨ upperStr ((parse_csv_line line).headD "") ∉
      (["CL", "RH", "TM", "SRMODE", "SR", "TX"] : List String)) :
    apply_message S line = S := by
  rcases h with h | h
  · subst h; rfl
  · simp only [List.mem_cons, List.not_mem_nil, or_false, not_or] at h
    obtain ⟨h1, h2, h3, h4, h5, h6⟩ := h
    simp only [apply_message]
    split_ifs <;> rfl

/-- Claim C6 witness: an unknown tag on a populated line is a no-op. -/
theorem unknown_line_noop_witness :
    apply_message State.initial "HELLO,world" = State.initial :=
  unknown_line_noop State.initial "HELLO,world" (Or.inr (by decide))

/-- Claim C7: fields come out trimmed; a line of comma-joined quote-wrapped
fields (inner quotes doubled) decodes to exactly the trimmed field bodies,
so commas inside quotes do not split and a doubled quote yields one literal
quote; and a quote-free line is split at every comma, each field trimmed. -/
theorem csv_decoder_spec (line : String) (fs : List (List Char)) (s : List Char)
    (hfs : fs ≠ []) (hs : '"' ∉ s) :
    (∀ f ∈ parse_csv_line line, strip f.data = f) ∧
    parse_csv_line ⟨joinFields (fs.map encodeField)⟩ = fs.map strip ∧
    parse_csv_line ⟨s⟩ = (splitCommas s).map strip := by
  refine ⟨parseAux_fields_stripped line.data false [], parse_encoded fs hfs, ?_⟩
  show parseAux s false [] = _
  rw [parseAux_no_quotes s [] hs, List.nil_append]
  rfl

/-- Claim C7 witness: a quoted field with a comma, a doubled quote, and a
quote-free comma split. -/
theorem csv_decoder_spec_witness :
    strip ("a,b" : String).data = "a,b" ∧
    parse_csv_line ⟨joinFields ([['a', ',', 'b'], ['c', '"', 'd']].map encodeField)⟩ =
      [['a', ',', 'b'], ['c', '"', 'd']].map strip ∧
    parse_csv_line ⟨['x', ',', ' ', 'y']⟩ = (splitCommas ['x', ',', ' ', 'y']).map strip := by
  have h := csv_decoder_spec "\"a,b\", c " [['a', ',', 'b'], ['c', '"', 'd']]
    ['x', ',', ' ', 'y'] (by decide) (by decide)
  exact ⟨h.1 "a,b" (by decide), h.2.1, h.2.2⟩

/-- Claim C8: an unterminated quote is closed implicitly at end of line —
the open field runs to the end of the line (commas included) and the line
is still parsed and processed, as the `TM,"1:23` example shows. -/
theorem unterminated_quote_best_effort (a : List Char) (S : State) (h : '"' ∉ a) :
    parse_csv_line ⟨'"' :: a⟩ = [strip a] ∧
    (apply_message S "TM,\"1:23").clock = "1:23" ∧
    (apply_message S "TM,\"1:23").mode = "HEADER" := by
  refine ⟨?_, rfl, rfl⟩
  show parseAux ('"' :: a) false [] = [strip a]
  rw [parseAux_quote_open, parseAux_inq_eol a [] h, List.nil_append]

/-- Claim C8 witness: the open field `"1:23` parses to `1:23`. -/
theorem unterminated_quote_best_effort_witness :
    parse_csv_line ⟨'"' :: ['1', ':', '2', '3']⟩ = [strip ['1', ':', '2', '3']] ∧
    (apply_message State.initial "TM,\"1:23").clock = "1:23" ∧
    (apply_message State.initial "TM,\"1:23").mode = "HEADER" :=
  unterminated_quote_best_effort ['1', ':', '2', '3'] State.initial (by decide)

/-- Claim C9: `SRMODE,END` only forces HEADER mode and changes nothing
else; a subsequent SR message appends to the preserved results lists and
forces RESULTS mode again. -/
theorem srmode_end_frame (S : State) (r : String × String × String) :
    apply_message S "SRMODE,END" = { S with mode := "HEADER" } ∧
    (applySR (apply_message S "SRMODE,END") r).mode = "RESULTS" ∧
    (applySR (apply_message S "SRMODE,END") r).results =
      lastN 16 (S.results ++ [(r.1, r.2.2)]) ∧
    (applySR (apply_message S "SRMODE,END") r).results_names =
      lastN 16 (S.results_names ++ [r.2.1]) :=
  ⟨rfl, rfl, rfl, rfl⟩

/-- Claim C10: from the initial state, after any sequence of messages the
two results lists are the two projections of the one canonical
(place, name, mark) entry list `applyEntries` builds from the very same
lines — each SR appends the i-th name together with the i-th
(place, mark) pair from the same message, both lists are truncated to 16
together and cleared together — and hence they always have equal length. -/
theorem parallel_results_lists (lines : List String) :
    (applyAll lines).results =
      (lines.foldl applyEntries []).map (fun e => (e.1, e.2.2)) ∧
    (applyAll lines).results_names =
      (lines.foldl applyEntries []).map (fun e => e.2.1) ∧
    (applyAll lines).results.length = (applyAll lines).results_names.length := by
  obtain ⟨h1, h2⟩ := foldl_entries lines State.initial [] rfl rfl
  refine ⟨h1, h2, ?_⟩
  show (lines.foldl apply_message State.initial).results.length =
    (lines.foldl apply_message State.initial).results_names.length
  rw [h1, h2, List.length_map, List.length_map]

end LynxReceiver
